import Mathlib

/-!
Shallow embedding of the abbreviation-expansion engine of `src/input.ts`
(VSCode Lean abbreviation input mode), together with theorems settling the
behavioural claims about it.

Modelling conventions:
* JS strings are `List Char` (`Str`); string literals are written via `str`.
* A JS object used as a dictionary (`Translations`) is an ordered association
  list: list order models the object's key iteration order, and keys are
  unique in an actual JS object (hypothesised via `Nodup` where it matters).
* JS truthiness of a `string | null | undefined` value is `strTruthy`:
  a defined, non-empty string.
* `null` and `undefined` are both modelled as `none`.
-/

namespace LeanInput

/-- JS strings, modelled as lists of characters. -/
abbrev Str := List Char

/-- Coercion from Lean string literals to the JS-string model. -/
def str (s : String) : Str := s.toList

/-- `export interface Translations { [abbrev: string]: string; }` — a JS object
mapping abbreviation strings to symbol strings, as an ordered association list. -/
abbrev Translations := List (Str × Str)

/-- JS property read `obj[k]` on a `Translations` object: the value of the
first (in a real JS object: unique) entry with key `k`, if any. -/
def objGet (t : Translations) (k : Str) : Option Str :=
  (t.find? (fun p => decide (p.1 = k))).map (fun p => p.2)

/-- JS truthiness of a `string | null | undefined` value: it is truthy exactly
when it is defined and non-empty. -/
def strTruthy : Option Str → Bool
  | some s => !s.isEmpty
  | none => false

/-- The `for (const abbrev in allTranslations)` loop of `findReplacement`
(input.ts:273-278): scans the table in iteration order keeping the current
`shortestExtension` (strictly shorter keys replace it, so the first key of
minimal length wins). The `!shortestExtension` test is JS truthiness on the
accumulator. -/
def shortestExtensionLoop (typedAbbrev : Str) : Option Str → Translations → Option Str
  | acc, [] => acc
  | acc, (abbr, _) :: rest =>
      shortestExtensionLoop typedAbbrev
        (if typedAbbrev.isPrefixOf abbr
            && (!(strTruthy acc) || abbr.length < (acc.getD []).length)
         then some abbr else acc) rest

/-- `LeanInputAbbreviator.findReplacement` (input.ts:268-290), recursing on the
abbreviation with its last character removed (`typedAbbrev.slice(0, length-1)`);
`typedAbbrev.slice(length-1)` is `a.drop (a.length - 1)`, the last character as
a one-character string. `if (prefixReplacement)` is JS truthiness: an
empty-string sub-result is treated as no replacement. -/
def findReplacement (t : Translations) (a : Str) : Option Str :=
  if h : a.isEmpty then none
  else if strTruthy (objGet t a) then objGet t a
  else
    match shortestExtensionLoop a none t with
    | some k => objGet t k
    | none =>
        match findReplacement t a.dropLast with
        | some r => if r.isEmpty then none else some (r ++ a.drop (a.length - 1))
        | none => none
termination_by a.length
decreasing_by
  simp only [List.length_dropLast]
  have hne : a ≠ [] := fun he => h (by simp [he])
  have := List.length_pos.mpr hne
  omega

/-- Fuel-bounded reformulation of `findReplacement`, recursion made structural
on the fuel. Used to express that the recursion depth of `findReplacement` is
bounded by the length of its argument (claim C9). -/
def findReplacementFuel (t : Translations) : Nat → Str → Option Str
  | _, [] => none
  | 0, _ :: _ => none
  | fuel + 1, a =>
      if strTruthy (objGet t a) then objGet t a
      else
        match shortestExtensionLoop a none t with
        | some k => objGet t k
        | none =>
            match findReplacementFuel t fuel a.dropLast with
            | some r => if r.isEmpty then none else some (r ++ a.drop (a.length - 1))
            | none => none

/-- The table keys that have `a` as a (not necessarily proper) prefix, in
iteration order. -/
def extKeys (t : Translations) (a : Str) : List Str :=
  (t.map Prod.fst).filter (fun k => a.isPrefixOf k)

/-- Modelled from the spec's words ("among all table keys that start with `A`
as a prefix, pick the shortest; ties among equal-shortest keys broken by table
iteration order"): the first element of minimal length of a list. Compared
against the source's `shortestExtensionLoop`. -/
def specShortest : List Str → Option Str
  | [] => none
  | k :: ks =>
      match specShortest ks with
      | none => some k
      | some m => if k.length ≤ m.length then some k else some m

/-- Merge of a running accumulator with the minimum-so-far of the rest of the
scan: used to relate the source's left-to-right loop to `specShortest`. -/
def mergeMin : Option Str → Option Str → Option Str
  | none, m => m
  | some b, none => some b
  | some b, some m => if m.length < b.length then some m else some b

theorem mem_extKeys {t : Translations} {a k : Str} :
    k ∈ extKeys t a ↔ k ∈ t.map Prod.fst ∧ a <+: k := by
  simp [extKeys, List.mem_filter, List.isPrefixOf_iff_prefix]

theorem extKeys_nil (a : Str) : extKeys [] a = [] := rfl

theorem extKeys_cons_pos {t : Translations} {a k : Str} (v : Str)
    (h : a.isPrefixOf k = true) : extKeys ((k, v) :: t) a = k :: extKeys t a := by
  simp [extKeys, List.filter_cons, h]

theorem extKeys_cons_neg {t : Translations} {a k : Str} (v : Str)
    (h : a.isPrefixOf k = false) : extKeys ((k, v) :: t) a = extKeys t a := by
  simp [extKeys, List.filter_cons, h]

theorem shortestExtensionLoop_cons (a : Str) (acc : Option Str) (k v : Str)
    (rest : Translations) :
    shortestExtensionLoop a acc ((k, v) :: rest) =
      shortestExtensionLoop a
        (if a.isPrefixOf k && (!(strTruthy acc) || k.length < (acc.getD []).length)
         then some k else acc) rest := rfl

theorem specShortest_eq_none {l : List Str} : specShortest l = none ↔ l = [] := by
  cases l with
  | nil => simp [specShortest]
  | cons k ks =>
      constructor
      · intro h
        exfalso
        simp only [specShortest] at h
        cases hs : specShortest ks with
        | none => simp [hs] at h
        | some m => simp only [hs] at h; split at h <;> simp at h
      · intro h
        exact absurd h (List.cons_ne_nil k ks)

theorem specShortest_spec {l : List Str} {m : Str} (h : specShortest l = some m) :
    m ∈ l ∧ ∀ x ∈ l, m.length ≤ x.length := by
  induction l generalizing m with
  | nil => simp [specShortest] at h
  | cons k ks ih =>
      simp only [specShortest] at h
      cases hs : specShortest ks with
      | none =>
          simp only [hs] at h
          cases h
          have : ks = [] := specShortest_eq_none.mp hs
          subst this
          simp
      | some m2 =>
          simp only [hs] at h
          obtain ⟨hmem, hmin⟩ := ih hs
          by_cases hk : k.length ≤ m2.length
          · rw [if_pos hk] at h
            cases h
            refine ⟨List.mem_cons_self k ks, ?_⟩
            intro x hx
            rcases List.mem_cons.mp hx with hx | hx
            · subst hx; exact le_rfl
            · exact le_trans hk (hmin x hx)
          · rw [if_neg hk] at h
            cases h
            refine ⟨List.mem_cons.mpr (Or.inr hmem), ?_⟩
            intro x hx
            rcases List.mem_cons.mp hx with hx | hx
            · subst hx; omega
            · exact hmin x hx

theorem shortestExtensionLoop_eq_mergeMin {a : Str} (ha : a ≠ []) :
    ∀ (t : Translations) (acc : Option Str), (∀ k, acc = some k → k ≠ []) →
      shortestExtensionLoop a acc t = mergeMin acc (specShortest (extKeys t a)) := by
  intro t
  induction t with
  | nil =>
      intro acc hacc
      cases acc <;> rfl
  | cons p rest ih =>
      intro acc hacc
      obtain ⟨k, v⟩ := p
      rw [shortestExtensionLoop_cons]
      rcases Bool.eq_false_or_eq_true (a.isPrefixOf k) with hpk | hpk
      case inr =>
        rw [extKeys_cons_neg v hpk]
        have hsel :
            (if a.isPrefixOf k && (!strTruthy acc || decide (k.length < (acc.getD []).length))
             then some k else acc) = acc := by
          simp [hpk]
        rw [hsel]
        exact ih acc hacc
      case inl =>
        rw [extKeys_cons_pos v hpk]
        have hk : k ≠ [] := by
          have hpre : a <+: k := List.isPrefixOf_iff_prefix.mp hpk
          intro he
          subst he
          exact ha (List.prefix_nil.mp hpre)
        cases acc with
        | none =>
            have hsel :
                (if a.isPrefixOf k &&
                    (!strTruthy (none : Option Str)
                      || decide (k.length < ((none : Option Str).getD []).length))
                 then some k else (none : Option Str)) = some k := by
              simp [hpk, strTruthy]
            rw [hsel, ih (some k) (fun k2 hk2 => by cases hk2; exact hk)]
            simp only [specShortest]
            cases hs : specShortest (extKeys rest a) with
            | none => rfl
            | some m =>
                simp only [mergeMin]
                split_ifs <;> (try simp only [mergeMin]) <;>
                  first
                  | rfl
                  | omega
                  | (split_ifs <;> first | rfl | omega)
        | some b =>
            have hb : b ≠ [] := hacc b rfl
            have hsb : strTruthy (some b) = true := by
              simp [strTruthy, List.isEmpty_iff, hb]
            by_cases hlt : k.length < b.length
            · have hsel :
                  (if a.isPrefixOf k &&
                      (!strTruthy (some b) || decide (k.length < ((some b).getD []).length))
                   then some k else some b) = some k := by
                simp [hpk, hsb, hlt]
              rw [hsel, ih (some k) (fun k2 hk2 => by cases hk2; exact hk)]
              simp only [specShortest]
              cases hs : specShortest (extKeys rest a) with
              | none =>
                  simp only [mergeMin]
                  split_ifs <;> (try simp only [mergeMin]) <;>
                    first
                    | rfl
                    | omega
                    | (split_ifs <;> first | rfl | omega)
              | some m =>
                  simp only [mergeMin]
                  split_ifs <;> (try simp only [mergeMin]) <;>
                    first
                    | rfl
                    | omega
                    | (split_ifs <;> first | rfl | omega)
            · have hsel :
                  (if a.isPrefixOf k &&
                      (!strTruthy (some b) || decide (k.length < ((some b).getD []).length))
                   then some k else some b) = some b := by
                simp [hpk, hsb, hlt]
              rw [hsel, ih (some b) hacc]
              simp only [specShortest]
              cases hs : specShortest (extKeys rest a) with
              | none =>
                  simp only [mergeMin]
                  split_ifs <;> (try simp only [mergeMin]) <;>
                    first
                    | rfl
                    | omega
                    | (split_ifs <;> first | rfl | omega)
              | some m =>
                  simp only [mergeMin]
                  split_ifs <;> (try simp only [mergeMin]) <;>
                    first
                    | rfl
                    | omega
                    | (split_ifs <;> first | rfl | omega)

theorem shortestExtensionLoop_eq_specShortest {a : Str} (ha : a ≠ []) (t : Translations) :
    shortestExtensionLoop a none t = specShortest (extKeys t a) := by
  rw [shortestExtensionLoop_eq_mergeMin ha t none (by intro k hk; cases hk)]
  cases specShortest (extKeys t a) <;> rfl

theorem objGet_mem {t : Translations} {k v : Str} (h : objGet t k = some v) :
    (k, v) ∈ t ∧ k ∈ t.map Prod.fst := by
  simp only [objGet, Option.map_eq_some'] at h
  obtain ⟨p, hp, hv⟩ := h
  have hmem := List.mem_of_find?_eq_some hp
  have hkey := List.find?_some hp
  simp only [decide_eq_true_eq] at hkey
  obtain ⟨k1, v1⟩ := p
  simp only at hkey hv
  subst hkey hv
  exact ⟨hmem, List.mem_map_of_mem Prod.fst hmem⟩

theorem objGet_eq_none_of_not_mem {t : Translations} {k : Str}
    (h : k ∉ t.map Prod.fst) : objGet t k = none := by
  simp only [objGet, Option.map_eq_none', List.find?_eq_none]
  intro p hp
  simp only [decide_eq_true_eq]
  intro he
  exact h (he ▸ List.mem_map_of_mem Prod.fst hp)

theorem findReplacement_nil (t : Translations) : findReplacement t [] = none := by
  rw [findReplacement.eq_def]
  rfl

theorem findReplacement_cons_eq (t : Translations) (a : Str) (ha : a ≠ []) :
    findReplacement t a =
      if strTruthy (objGet t a) then objGet t a
      else
        match shortestExtensionLoop a none t with
        | some k => objGet t k
        | none =>
            match findReplacement t a.dropLast with
            | some r => if r.isEmpty then none else some (r ++ a.drop (a.length - 1))
            | none => none := by
  rw [findReplacement.eq_def]
  simp [List.isEmpty_iff, ha]

theorem findReplacementFuel_eq (t : Translations) :
    ∀ (fuel : Nat) (a : Str), a.length ≤ fuel →
      findReplacementFuel t fuel a = findReplacement t a := by
  intro fuel
  induction fuel with
  | zero =>
      intro a ha
      have : a = [] := List.eq_nil_of_length_eq_zero (Nat.le_zero.mp ha)
      subst this
      simp [findReplacementFuel, findReplacement_nil]
  | succ n ih =>
      intro a ha
      match a with
      | [] => simp [findReplacementFuel, findReplacement_nil]
      | x :: xs =>
          rw [findReplacement_cons_eq t (x :: xs) (List.cons_ne_nil x xs)]
          simp only [findReplacementFuel]
          rw [ih (x :: xs).dropLast
            (by simp only [List.length_dropLast, List.length_cons] at *; omega)]

theorem drop_length_sub_one :
    ∀ (a : Str) (h : a ≠ []), a.drop (a.length - 1) = [a.getLast h] := by
  intro a
  induction a with
  | nil => intro h; exact absurd rfl h
  | cons x xs ih =>
      intro h
      cases xs with
      | nil => rfl
      | cons y ys =>
          have hne : (y :: ys) ≠ [] := List.cons_ne_nil y ys
          have hstep :
              (x :: y :: ys).drop ((x :: y :: ys).length - 1) =
                (y :: ys).drop ((y :: ys).length - 1) := by
            simp only [List.length_cons]
            rw [show ys.length + 1 + 1 - 1 = ys.length + 1 from rfl, List.drop_succ_cons,
              show ys.length + 1 - 1 = ys.length from rfl]
          rw [hstep, ih hne]
          simp [List.getLast_cons]

theorem findReplacement_exact {t : Translations} {a v : Str} (ha : a ≠ [])
    (hv : objGet t a = some v) : findReplacement t a = some v := by
  rw [findReplacement_cons_eq t a ha, hv]
  by_cases hv0 : v = []
  · subst hv0
    have hst : strTruthy (some ([] : Str)) = false := rfl
    rw [hst]
    simp only [Bool.false_eq_true, if_false]
    rw [shortestExtensionLoop_eq_specShortest ha]
    have hmem : a ∈ extKeys t a := mem_extKeys.mpr ⟨(objGet_mem hv).2, List.prefix_rfl⟩
    cases hspec : specShortest (extKeys t a) with
    | none =>
        exfalso
        rw [specShortest_eq_none.mp hspec] at hmem
        simp at hmem
    | some m =>
        obtain ⟨hmmem, hmin⟩ := specShortest_spec hspec
        obtain ⟨-, hpre⟩ := mem_extKeys.mp hmmem
        have hma : m = a :=
          (hpre.eq_of_length (le_antisymm hpre.length_le (hmin a hmem))).symm
        subst hma
        exact hv
  · have hst : strTruthy (some v) = true := by
      simp [strTruthy, List.isEmpty_iff, hv0]
    rw [hst]
    simp

theorem findReplacement_of_shortestExt {t : Translations} {a k : Str} (ha : a ≠ [])
    (hget : objGet t a = none) (hspec : specShortest (extKeys t a) = some k) :
    findReplacement t a = objGet t k := by
  rw [findReplacement_cons_eq t a ha, hget]
  have hst : strTruthy (none : Option Str) = false := rfl
  rw [hst]
  simp only [Bool.false_eq_true, if_false]
  rw [shortestExtensionLoop_eq_specShortest ha, hspec]

theorem findReplacement_none_of_no_prefix (t : Translations) :
    ∀ (n : Nat) (a : Str), a.length ≤ n →
      (∀ p, p ≠ [] → p <+: a → extKeys t p = []) → findReplacement t a = none := by
  intro n
  induction n with
  | zero =>
      intro a hlen _
      have : a = [] := List.eq_nil_of_length_eq_zero (Nat.le_zero.mp hlen)
      subst this
      exact findReplacement_nil t
  | succ n ih =>
      intro a hlen hno
      cases haa : a with
      | nil => exact findReplacement_nil t
      | cons x xs =>
          subst haa
          have ha : (x :: xs) ≠ [] := List.cons_ne_nil x xs
          have hext : extKeys t (x :: xs) = [] := hno _ ha List.prefix_rfl
          have hget : objGet t (x :: xs) = none := by
            cases hv : objGet t (x :: xs) with
            | none => rfl
            | some v =>
                exfalso
                have hmem : (x :: xs) ∈ extKeys t (x :: xs) :=
                  mem_extKeys.mpr ⟨(objGet_mem hv).2, List.prefix_rfl⟩
                rw [hext] at hmem
                simp at hmem
          have hrec : findReplacement t (x :: xs).dropLast = none := by
            apply ih
            · simp only [List.length_dropLast, List.length_cons] at *
              omega
            · intro p hp hpre
              exact hno p hp (hpre.trans (List.dropLast_prefix _))
          rw [findReplacement_cons_eq t _ ha, hget,
            shortestExtensionLoop_eq_specShortest ha, hext, hrec]
          rfl

/-- C3: for a non-empty abbreviation `a`, an exact table match wins
(`findReplacement` returns the table's value for `a`, even when that value is
the empty string); otherwise, when some table keys extend `a`, the result is
the value of the first shortest such key (`specShortest` is the spec-side
"shortest, ties by iteration order" choice), which is minimal in length among
all keys having `a` as a prefix. -/
theorem claim3_exact_match_and_shortest_extension (t : Translations) (a : Str) (ha : a ≠ []) :
    (∀ v, objGet t a = some v → findReplacement t a = some v) ∧
    (objGet t a = none → ∀ k, specShortest (extKeys t a) = some k →
      findReplacement t a = objGet t k ∧ k ∈ extKeys t a ∧
        ∀ k2 ∈ extKeys t a, k.length ≤ k2.length) := by
  constructor
  · intro v hv
    exact findReplacement_exact ha hv
  · intro hget k hspec
    obtain ⟨hmem, hmin⟩ := specShortest_spec hspec
    exact ⟨findReplacement_of_shortestExt ha hget hspec, hmem, hmin⟩

/-- Witness for C3 at the spec's own example table `{"ab": "X", "abc": "Y"}`:
resolving `"ab"` yields `"X"` (exact match), and resolving `"a"` yields the
value of the shortest extension key `"ab"`. -/
theorem claim3_witness :
    findReplacement [(str "ab", str "X"), (str "abc", str "Y")] (str "ab") = some (str "X") ∧
    findReplacement [(str "ab", str "X"), (str "abc", str "Y")] (str "a") =
      objGet [(str "ab", str "X"), (str "abc", str "Y")] (str "ab") :=
  ⟨(claim3_exact_match_and_shortest_extension _ _ (by decide)).1 (str "X") (by decide),
   ((claim3_exact_match_and_shortest_extension _ _ (by decide)).2 (by decide)
      (str "ab") (by decide)).1⟩

/-- C4: for a non-empty abbreviation `a` with no exact match and no table key
having `a` as a prefix, if `a` minus its last character resolves to a
replacement `r` (a truthy result: in the code's convention the empty string
signals "no replacement"), then resolving `a` gives `r` with the removed last
character appended; and if no non-empty prefix of `a` has any matching or
extending table key at any recursion level, resolution yields no replacement. -/
theorem claim4_prefix_fallback_composes (t : Translations) (a : Str) (ha : a ≠ []) :
    (extKeys t a = [] → ∀ r, findReplacement t a.dropLast = some r → r ≠ [] →
      findReplacement t a = some (r ++ [a.getLast ha])) ∧
    ((∀ p, p ≠ [] → p <+: a → extKeys t p = []) → findReplacement t a = none) := by
  constructor
  · intro hext r hr hrne
    have hget : objGet t a = none := by
      cases hv : objGet t a with
      | none => rfl
      | some v =>
          exfalso
          have hmem : a ∈ extKeys t a :=
            mem_extKeys.mpr ⟨(objGet_mem hv).2, List.prefix_rfl⟩
          rw [hext] at hmem
          simp at hmem
    rw [findReplacement_cons_eq t a ha, hget,
      shortestExtensionLoop_eq_specShortest ha, hext, hr]
    have hemp : r.isEmpty = false := by
      simp [List.isEmpty_iff, hrne]
    have hst : strTruthy (none : Option Str) = false := rfl
    rw [hst]
    simp only [Bool.false_eq_true, if_false]
    rw [show specShortest ([] : List Str) = none from rfl]
    rw [hemp]
    simp only [Bool.false_eq_true, if_false]
    rw [drop_length_sub_one a ha]
  · intro hno
    exact findReplacement_none_of_no_prefix t a.length a le_rfl hno

/-- Witness for C4 over the table `{"ab": "X"}`: the abbreviation `"abz"` has
no match and no extension, its `dropLast` `"ab"` resolves to `"X"`, so `"abz"`
resolves to `"Xz"`; and `"zq"`, none of whose prefixes match anything,
resolves to nothing. -/
theorem claim4_witness :
    findReplacement [(str "ab", str "X")] (str "abz") = some (str "X" ++ [(str "abz").getLast (by decide)]) ∧
    findReplacement [(str "ab", str "X")] (str "zq") = none :=
  ⟨((claim4_prefix_fallback_composes [(str "ab", str "X")] (str "abz") (by decide)).1
      (by decide) (str "X")
      (findReplacement_exact (by decide) (by decide))
      (by decide)),
   (claim4_prefix_fallback_composes [(str "ab", str "X")] (str "zq") (by decide)).2
      (by
        intro p hp hpre
        rw [show str "zq" = ['z', 'q'] from rfl] at hpre
        have hlen := hpre.length_le
        rcases p with - | ⟨c1, - | ⟨c2, - | ⟨c3, p⟩⟩⟩
        · exact absurd rfl hp
        · obtain ⟨h1, -⟩ := List.cons_prefix_cons.mp hpre
          subst h1
          decide
        · obtain ⟨h1, h2⟩ := List.cons_prefix_cons.mp hpre
          obtain ⟨h2, -⟩ := List.cons_prefix_cons.mp h2
          subst h1
          subst h2
          decide
        · exfalso
          simp at hlen)⟩

/-- C9: `findReplacement` terminates on every input: its recursion depth is
bounded by the length of the typed abbreviation (each recursive call removes
the last character), as witnessed by agreement with the fuel-bounded
`findReplacementFuel` at fuel equal to the input length, and the recursion
bottoms out at the empty string with no replacement. -/
theorem claim9_findReplacement_terminates (t : Translations) :
    (∀ a : Str, findReplacement t a = findReplacementFuel t a.length a) ∧
    findReplacement t [] = none := by
  constructor
  · intro a
    exact (findReplacementFuel_eq t a.length a le_rfl).symm
  · exact findReplacement_nil t

/-- A zero-based buffer position (vscode `Position`): line and character. -/
structure Position where
  line : Nat
  character : Nat
deriving DecidableEq

/-- A buffer range (vscode `Range`): start and end position (`end` is a Lean
keyword, so that field is named `stop`). -/
structure Range where
  start : Position
  stop : Position
deriving DecidableEq

/-- A cursor selection (vscode `Selection`): anchor and active position. -/
structure Selection where
  anchor : Position
  active : Position
deriving DecidableEq

/-- vscode `Selection.isEmpty`: start and end coincide, i.e. anchor equals
active. -/
def Selection.isEmpty (s : Selection) : Bool := decide (s.anchor = s.active)

/-- vscode `Selection.isSingleLine`: start and end are on the same line. -/
def Selection.isSingleLine (s : Selection) : Bool :=
  decide (s.anchor.line = s.active.line)

/-- The document and cursor state of a vscode `TextEditor`: the buffer as a
list of lines plus the current selections. -/
structure EditorState where
  document : List Str
  selections : List Selection
deriving DecidableEq

/-- The observable state of a `TextEditorAbbrevHandler`: its `active` flag
together with the decoration ranges currently set on the editor for the
abbreviator's decoration type. -/
structure HandlerState where
  active : Bool
  decorations : List Range
deriving DecidableEq

/-- `interface RangeInfo` (input.ts:68-73). -/
structure RangeInfo where
  index : Nat
  selection : Selection
  range : Range
  text : Str
deriving DecidableEq

/-- `rangeSize` (input.ts:64-66). -/
def rangeSize (r : Range) : Nat := r.stop.character - r.start.character

/-- The characters matched by the JS regex class `\s`, restricted to the
ASCII/Latin-1 range (JS additionally counts the Unicode space separators and
BOM, which never occur in the inputs considered here); `\S` is its negation. -/
def jsWhitespace (c : Char) : Bool :=
  c = ' ' || c = '\t' || c = '\n' || c = '\r' || c = '\x0b' || c = '\x0c' || c = '\xa0'

/-- `exec` of the regex `/\\\S*?$/` (input.ts:98) on the text before the
cursor. The regex can match starting at position `i` exactly when the
character there is a literal backslash — hardcoded, independent of the
configured leader — and every character after it is non-whitespace (the lazy
`\S*?` must still reach the `$` anchor, so laziness does not change the
matched text); `exec` returns the leftmost such match. -/
def execLeaderScan : Str → Option Str
  | [] => none
  | c :: rest =>
      if c = '\\' && rest.all (fun d => !jsWhitespace d) then some (c :: rest)
      else execLeaderScan rest

/-- One iteration of the `getRangeInfo` loop (input.ts:93-107) for the cursor
with index `i`: the text of the line before the cursor (moved by
`incrCursor`) is scanned for the backslash-led token. `getText` clamps the
requested range to the line's real extent, which `take` models; a negative
cursor position is clamped at zero. -/
def riOf (doc : List Str) (incrCursor : Int) (i : Nat) (selection : Selection) :
    Option RangeInfo :=
  let line := selection.active.line
  let character := (Int.ofNat selection.active.character + incrCursor).toNat
  let beforeCursor := (doc.getD line []).take character
  match execLeaderScan beforeCursor with
  | none => none
  | some s => some ⟨i, selection, ⟨⟨line, character - s.length⟩, ⟨line, character⟩⟩, s⟩

/-- The `for` loop of `getRangeInfo` over the selections, `i` being the
running cursor index. -/
def scanSelections (doc : List Str) (incrCursor : Int) : Nat → List Selection → List RangeInfo
  | _, [] => []
  | i, s :: rest =>
      match riOf doc incrCursor i s with
      | some ri => ri :: scanSelections doc incrCursor (i + 1) rest
      | none => scanSelections doc incrCursor (i + 1) rest

/-- `TextEditorAbbrevHandler.getRangeInfo` (input.ts:88-109): nothing when
inactive or when any selection is multi-line or non-empty, else one
`RangeInfo` per cursor whose before-text ends in a backslash-led token. -/
def getRangeInfo (active : Bool) (ed : EditorState) (incrCursor : Int) : List RangeInfo :=
  if !active then []
  else if ed.selections.any (fun s => ! s.isSingleLine || ! s.isEmpty) then []
  else scanSelections ed.document incrCursor 0 ed.selections

/-- The `hackyReplacements` object literal (input.ts:114-118), keyed on a
span's full typed text: the replacement glyph pair and, for the `{{` and `[[`
forms, the literal closing text that must follow the span. -/
def hackyReplacements (leader : Str) (text : Str) : Option (Str × Option Str) :=
  if text = leader ++ str "\x7b\x7b" then some (str "⦃⦄", some (str "\x7d\x7d"))
  else if text = leader ++ str "[[" then some (str "⟦⟧", some (str "]]"))
  else if text = leader ++ str "<>" then some (str "⟨⟩", none)
  else none

/-- `getText` of the single-line range from character `a` to character `b` of
line `line` (the host clamps the range to the line's actual extent). -/
def getTextInLine (doc : List Str) (line a b : Nat) : Str :=
  ((doc.getD line []).drop a).take (b - a)

/-- The emitting tail of the `update` loop body (input.ts:130-134): the edit
`(cursor index, replaced range, replacement text, new cursor position)` — the
new cursor `pos` is `range.start.translate(0, 1)`, i.e. between the two
glyphs of the replacement pair — and the collapsed mutated span. -/
def hackyEmit (ri : RangeInfo) (repl : Str) (rightLen : Nat) :
    (Nat × Range × Str × Position) × RangeInfo :=
  let pos : Position := ⟨ri.range.start.line, ri.range.start.character + 1⟩
  let range : Range := ⟨ri.range.start, ⟨ri.range.stop.line, ri.range.stop.character + rightLen⟩⟩
  ((ri.index, range, repl, pos), { ri with text := [], range := ⟨pos, pos⟩ })

/-- The per-span body of the `update` loop (input.ts:120-136): emit a
bracket-pair edit when a hacky replacement applies — for the `{{`/`[[` forms
only when the closing literal indeed follows the span in the buffer, that
literal then being included in the replaced range (`(right && right.length)
|| 0`). -/
def hackyStep (doc : List Str) (leader : Str) (ri : RangeInfo) :
    Option (Nat × Range × Str × Position) × RangeInfo :=
  match hackyReplacements leader ri.text with
  | none => (none, ri)
  | some (repl, none) =>
      let e := hackyEmit ri repl 0
      (some e.1, e.2)
  | some (repl, some right) =>
      if getTextInLine doc ri.range.stop.line ri.range.stop.character
          (ri.range.stop.character + right.length) = right then
        let e := hackyEmit ri repl right.length
        (some e.1, e.2)
      else (none, ri)

/-- The outcome of `update`: the handler state afterwards plus the edit
requests issued (fire-and-forget through `editor.edit`). -/
structure UpdateResult where
  state : HandlerState
  edits : List (Nat × Range × Str × Position)
deriving DecidableEq

/-- `TextEditorAbbrevHandler.update` (input.ts:111-149): rescan the candidate
spans; deactivate when none remain; otherwise apply the bracket-pair special
cases, issue the resulting edits, and set the decorations to the (possibly
collapsed) span ranges. -/
def update (leader : Str) (ed : EditorState) (active : Bool) (incrCursor : Int) :
    UpdateResult :=
  let ris := getRangeInfo active ed incrCursor
  if ris.isEmpty then ⟨⟨false, []⟩, []⟩
  else
    let stepped := ris.map (hackyStep ed.document leader)
    ⟨⟨active, stepped.map (fun p => p.2.range)⟩, stepped.filterMap Prod.fst⟩

/-- The outcome of `convert`: the handler state afterwards plus the
replacement requests pushed to the deferred `editor.edit` call. The second
component of a request is the raw result of `findReplacement`: the source
pushes it with no definedness check, so `none` models pushing
`null`/`undefined` into `builder.replace`. -/
structure ConvertResult where
  state : HandlerState
  edits : List (Range × Option Str)
deriving DecidableEq

/-- `TextEditorAbbrevHandler.convert` (input.ts:150-168): resolve every span
of width ≥ 2 through `findReplacement` and push the result — with no check
that a replacement was actually found — then unconditionally deactivate. -/
def convert (tl : Translations) (ed : EditorState) (active : Bool) : ConvertResult :=
  let ris := getRangeInfo active ed 0
  if ris.isEmpty then ⟨⟨false, []⟩, []⟩
  else
    ⟨⟨false, []⟩,
     ris.filterMap (fun ri =>
       if rangeSize ri.range < 2 then none
       else some (ri.range, findReplacement tl (ri.text.drop 1)))⟩

/-- A single entry of `TextDocumentChangeEvent.contentChanges`; only the
inserted text is consulted by the handler. -/
structure ContentChange where
  text : Str
deriving DecidableEq

/-- A `TextDocumentChangeEvent`. -/
structure ChangeEvent where
  contentChanges : List ContentChange
deriving DecidableEq

/-- The test `change.text.match(/^\s+|[^{(]?[)}⟩]$/)` (input.ts:188) as a
Boolean. The optional class `[^{(]?` is vacuous for match existence: for any
text ending in one of `)`, `}`, `⟩` the optional part can match the empty
string, so a match exists iff the text starts with a whitespace character or
ends with one of those closers. -/
def closingMatch (s : Str) : Bool :=
  (match s with
   | c :: _ => jsWhitespace c
   | [] => false)
  ||
  (match s.getLast? with
   | some c => c = ')' || c = '\x7d' || c = '⟩'
   | none => false)

/-- The outcome of one `onChanged` dispatch: the handler state afterwards and
the edit requests issued on the way (through `convert` and through
`update`). -/
structure StepResult where
  state : HandlerState
  convertEdits : List (Range × Option Str)
  updateEdits : List (Nat × Range × Str × Position)
deriving DecidableEq

/-- `TextEditorAbbrevHandler.onChanged` (input.ts:170-196). `ed` is the
post-edit buffer and cursor set. Only the event's first content change is
consulted; an event with no content change returns immediately. In the
active-leader branch the source runs `convert()` (which deactivates), then
sets `active = true` again and runs `update()`, so `update` is entered with
`active` true. -/
def onChanged (tl : Translations) (leader : Str) (ed : EditorState) (st : HandlerState)
    (ev : ChangeEvent) : StepResult :=
  match ev.contentChanges with
  | [] => ⟨st, [], []⟩
  | change :: _ =>
      if !st.active then
        if change.text = leader then
          let u := update leader ed true 1
          ⟨u.state, [], u.edits⟩
        else ⟨st, [], []⟩
      else
        if change.text = leader then
          let c := convert tl ed st.active
          let u := update leader ed true 0
          ⟨u.state, c.edits, u.edits⟩
        else if closingMatch change.text then
          let c := convert tl ed st.active
          ⟨c.state, c.edits, []⟩
        else if change.text = [] then
          let u := update leader ed st.active (-1)
          ⟨u.state, [], u.edits⟩
        else
          let u := update leader ed st.active (Int.ofNat change.text.length)
          ⟨u.state, [], u.edits⟩

/-- `TextEditorAbbrevHandler.onSelectionChanged` (input.ts:198-200): a
selection-only event re-runs `update()` with no cursor increment. -/
def onSelectionChanged (leader : Str) (ed : EditorState) (st : HandlerState) : UpdateResult :=
  update leader ed st.active 0

/-- The JS object spread `{ ...this.translations, ...this.customTranslations }`
(input.ts:217) building `allTranslations`: base keys keep their iteration
positions but take the override's value when the key is also present there;
override-only keys follow in their own order. -/
def mergeTranslations (translations customTranslations : Translations) : Translations :=
  translations.map (fun p =>
    match objGet customTranslations p.1 with
    | some v => (p.1, v)
    | none => p)
  ++ customTranslations.filter (fun p => (objGet translations p.1).isNone)

/-- `LeanInputExplanationHover.getAbbrevations` (input.ts:40-50): all override
abbreviations mapping to `symbol`, followed by all base abbreviations mapping
to `symbol` that are not skipped — the skip test `if (customTranslations[k])`
is JS truthiness, so a key overridden to the empty string is NOT skipped. -/
def getAbbrevations (translations customTranslations : Translations) (symbol : Str) :
    List Str :=
  (customTranslations.filter (fun p => decide (p.2 = symbol))).map Prod.fst
  ++ (translations.filter (fun p =>
        !(strTruthy (objGet customTranslations p.1)) && decide (p.2 = symbol))).map Prod.fst

/-- `.sort((a, b) => a.length - b.length)` (input.ts:55): a stable sort by
string length (ECMAScript `Array.prototype.sort` is required to be stable,
so ties keep their `getAbbrevations` order). -/
def sortByLength (l : List Str) : List Str :=
  l.mergeSort (fun a b => a.length ≤ b.length)

/-- `abbrevs.map((a) => this.leader + a).join(' or ')` (input.ts:57). -/
def joinOr : List Str → Str
  | [] => []
  | [x] => x
  | x :: xs => x ++ str " or " ++ joinOr xs

/-- `LeanInputExplanationHover.provideHover` (input.ts:52-58), with the
hovered symbol (the one-character text at the hover position) abstracted as
an input: the hover message, or `none` when no abbreviation produces the
symbol (the source then returns the JS value `false` instead of a Hover). -/
def provideHoverMsg (translations customTranslations : Translations)
    (leader symbol : Str) : Option Str :=
  let abbrevs := sortByLength (getAbbrevations translations customTranslations symbol)
  if abbrevs.isEmpty then none
  else
    some (str "Type " ++ symbol ++ str " using "
      ++ joinOr (abbrevs.map (fun a => leader ++ a)))

theorem convert_state (tl : Translations) (ed : EditorState) (active : Bool) :
    (convert tl ed active).state = ⟨false, []⟩ := by
  simp only [convert]
  split <;> rfl

theorem convert_eq_cons (tl : Translations) (ed : EditorState) (active : Bool)
    {ri : RangeInfo} {ris : List RangeInfo}
    (h : getRangeInfo active ed 0 = ri :: ris) :
    (convert tl ed active).edits =
      (ri :: ris).filterMap (fun r =>
        if rangeSize r.range < 2 then none
        else some (r.range, findReplacement tl (r.text.drop 1))) := by
  unfold convert
  rw [h]
  rfl

theorem update_eq_nil (leader : Str) (ed : EditorState) (active : Bool) (incr : Int)
    (h : getRangeInfo active ed incr = []) :
    update leader ed active incr = ⟨⟨false, []⟩, []⟩ := by
  unfold update
  rw [h]
  rfl

theorem update_eq_cons (leader : Str) (ed : EditorState) (active : Bool) (incr : Int)
    {ri : RangeInfo} {ris : List RangeInfo}
    (h : getRangeInfo active ed incr = ri :: ris) :
    update leader ed active incr =
      ⟨⟨active, ((ri :: ris).map (hackyStep ed.document leader)).map (fun p => p.2.range)⟩,
       ((ri :: ris).map (hackyStep ed.document leader)).filterMap Prod.fst⟩ := by
  unfold update
  rw [h]
  rfl

theorem getRangeInfo_false (ed : EditorState) (incr : Int) :
    getRangeInfo false ed incr = [] := rfl

theorem getRangeInfo_eq_nil_of_bad_selection (active : Bool) {ed : EditorState} (incr : Int)
    (h : ∃ s ∈ ed.selections, s.isSingleLine = false ∨ s.isEmpty = false) :
    getRangeInfo active ed incr = [] := by
  cases active with
  | false => rfl
  | true =>
      obtain ⟨s, hs, hbad⟩ := h
      have hany : ed.selections.any (fun s => ! s.isSingleLine || ! s.isEmpty) = true := by
        rw [List.any_eq_true]
        refine ⟨s, hs, ?_⟩
        rcases hbad with h1 | h1 <;> simp [h1]
      unfold getRangeInfo
      rw [hany]
      rfl

theorem update_decorInvariant_raw (leader : Str) (ed : EditorState) (active : Bool)
    (incr : Int) :
    (update leader ed active incr).state.active = false →
      (update leader ed active incr).state.decorations = [] := by
  cases hris : getRangeInfo active ed incr with
  | nil => rw [update_eq_nil leader ed active incr hris]; intro _; rfl
  | cons ri ris =>
      rw [update_eq_cons leader ed active incr hris]
      intro hfalse
      exfalso
      cases active with
      | true => exact Bool.noConfusion hfalse
      | false => rw [getRangeInfo_false] at hris; exact List.noConfusion hris

/-- The spec's decoration invariant for a handler: when `active` is false,
the decoration set is empty ("no decoration is shown while Inactive"). -/
def decorInvariant (s : HandlerState) : Prop := s.active = false → s.decorations = []

theorem onChanged_decorInvariant (tl : Translations) (leader : Str) (ed : EditorState)
    (st : HandlerState) (ev : ChangeEvent) (hinv : decorInvariant st) :
    decorInvariant (onChanged tl leader ed st ev).state := by
  cases hev : ev.contentChanges with
  | nil =>
      have h : (onChanged tl leader ed st ev).state = st := by
        simp [onChanged, hev]
      rw [h]
      exact hinv
  | cons change rest =>
      cases hact : st.active with
      | false =>
          by_cases hl : change.text = leader
          · have h : (onChanged tl leader ed st ev).state = (update leader ed true 1).state := by
              simp [onChanged, hev, hact, hl]
            rw [h]
            exact update_decorInvariant_raw leader ed true 1
          · have h : (onChanged tl leader ed st ev).state = st := by
              simp [onChanged, hev, hact, hl]
            rw [h]
            exact hinv
      | true =>
          by_cases hl : change.text = leader
          · have h : (onChanged tl leader ed st ev).state = (update leader ed true 0).state := by
              simp [onChanged, hev, hact, hl]
            rw [h]
            exact update_decorInvariant_raw leader ed true 0
          · by_cases hcl : closingMatch change.text = true
            · have h : (onChanged tl leader ed st ev).state = (convert tl ed true).state := by
                simp [onChanged, hev, hact, hl, hcl]
              rw [h, convert_state]
              intro _
              rfl
            · by_cases hemp : change.text = ([] : Str)
              · have h : (onChanged tl leader ed st ev).state
                    = (update leader ed true (-1)).state := by
                  simp [onChanged, hev, hact, hemp, hemp ▸ hl, hemp ▸ hcl]
                rw [h]
                exact update_decorInvariant_raw leader ed true (-1)
              · have h : (onChanged tl leader ed st ev).state
                    = (update leader ed true (Int.ofNat change.text.length)).state := by
                  simp [onChanged, hev, hact, hl, hcl, hemp]
                rw [h]
                exact update_decorInvariant_raw leader ed true (Int.ofNat change.text.length)

/-- C8: decorations are never shown while Inactive. Every call to `convert`
ends deactivated with the decoration set cleared, unconditionally — also when
no replacement edit was issued; `update` empties the decoration set whenever
it deactivates; and `onChanged` preserves the invariant that an inactive
handler has no decorations. -/
theorem claim8_inactive_shows_no_decoration (tl : Translations) (leader : Str)
    (ed : EditorState) (st : HandlerState) (ev : ChangeEvent) (incr : Int)
    (hinv : decorInvariant st) :
    (convert tl ed st.active).state.active = false ∧
    (convert tl ed st.active).state.decorations = [] ∧
    ((update leader ed st.active incr).state.active = false →
      (update leader ed st.active incr).state.decorations = []) ∧
    decorInvariant (onChanged tl leader ed st ev).state := by
  refine ⟨?_, ?_, update_decorInvariant_raw leader ed st.active incr,
    onChanged_decorInvariant tl leader ed st ev hinv⟩
  · rw [convert_state]
  · rw [convert_state]

/-- Witness for C8 at a concrete active handler, an empty buffer and a
whitespace-insertion event. -/
theorem claim8_witness :
    decorInvariant (⟨true, []⟩ : HandlerState) ∧
    decorInvariant
      (onChanged [] (str "\\") ⟨[], []⟩ ⟨true, []⟩ ⟨[⟨str " "⟩]⟩).state :=
  ⟨fun h => Bool.noConfusion h,
   (claim8_inactive_shows_no_decoration [] (str "\\") ⟨[], []⟩ ⟨true, []⟩ ⟨[⟨str " "⟩]⟩ 0
      (fun h => Bool.noConfusion h)).2.2.2⟩

/-- C1 (code bug): on the table `{"ab": "X"}`, with buffer line `\zq` and a
single cursor after the `q`, `convert` pushes the span's range paired with the
raw unresolved `findReplacement` result (`none`, i.e. JS `null`): the source
(input.ts:157-158) pushes `[range, replacement]` with no definedness check,
so the deferred edit issues `builder.replace(range, null)` instead of leaving
the unrecognized span untouched. (The deactivation itself still happens.) -/
theorem claim1_convert_pushes_null_replacement :
    (convert [(str "ab", str "X")] ⟨[str "\\zq"], [⟨⟨0, 3⟩, ⟨0, 3⟩⟩]⟩ true).edits
      = [(⟨⟨0, 0⟩, ⟨0, 3⟩⟩, none)] ∧
    (convert [(str "ab", str "X")] ⟨[str "\\zq"], [⟨⟨0, 3⟩, ⟨0, 3⟩⟩]⟩ true).state
      = ⟨false, []⟩ := by
  constructor
  · have h1 : findReplacement [(str "ab", str "X")] (str "zq") = none := by
      rw [← findReplacementFuel_eq [(str "ab", str "X")] (str "zq").length (str "zq") le_rfl]
      decide
    have h2 : (convert [(str "ab", str "X")] ⟨[str "\\zq"], [⟨⟨0, 3⟩, ⟨0, 3⟩⟩]⟩ true).edits
        = [(⟨⟨0, 0⟩, ⟨0, 3⟩⟩, findReplacement [(str "ab", str "X")] (str "zq"))] := rfl
    rw [h2, h1]
  · exact convert_state _ _ _

/-- C2 counterexample: a buffer-change event carrying two content changes,
with a single empty single-line cursor, leaves the session Active (with a
decorated span): `onChanged` inspects only `contentChanges[0]` and never
checks the number of changes, so no forced deactivation occurs. -/
theorem claim2_counterexample :
    (onChanged [] (str "\\") ⟨[str "\\ax"], [⟨⟨0, 2⟩, ⟨0, 2⟩⟩]⟩ ⟨true, []⟩
        ⟨[⟨str "x"⟩, ⟨str "y"⟩]⟩).state.active = true ∧
    ([⟨str "x"⟩, ⟨str "y"⟩] : List ContentChange).length = 2 ∧
    ∀ s ∈ [(⟨⟨0, 2⟩, ⟨0, 2⟩⟩ : Selection)], s.isSingleLine = true ∧ s.isEmpty = true := by
  decide

/-- C2 (amended): on every buffer-change event that carries at least one
content change and in which some cursor's selection is non-empty or
multi-line, the session is forced Inactive — `active` ends false and, given
the invariant that an inactive handler shows no decorations, the decoration
set ends empty — regardless of prior Active state. Events with more than one
content change receive no such treatment: only the first change is inspected
(see the counterexample). -/
theorem claim2_selection_guard_forces_inactive (tl : Translations) (leader : Str)
    (ed : EditorState) (st : HandlerState) (ev : ChangeEvent)
    (hinv : decorInvariant st) (hch : ev.contentChanges ≠ [])
    (hbad : ∃ s ∈ ed.selections, s.isSingleLine = false ∨ s.isEmpty = false) :
    (onChanged tl leader ed st ev).state.active = false ∧
    (onChanged tl leader ed st ev).state.decorations = [] := by
  have hupd : ∀ (b : Bool) (incr : Int), update leader ed b incr = ⟨⟨false, []⟩, []⟩ :=
    fun b incr =>
      update_eq_nil leader ed b incr (getRangeInfo_eq_nil_of_bad_selection b incr hbad)
  cases hev : ev.contentChanges with
  | nil => exact absurd hev hch
  | cons change rest =>
      cases hact : st.active with
      | false =>
          by_cases hl : change.text = leader
          · have h : (onChanged tl leader ed st ev).state = (update leader ed true 1).state := by
              simp [onChanged, hev, hact, hl]
            rw [h, hupd]
            exact ⟨rfl, rfl⟩
          · have h : (onChanged tl leader ed st ev).state = st := by
              simp [onChanged, hev, hact, hl]
            rw [h]
            exact ⟨hact, hinv hact⟩
      | true =>
          by_cases hl : change.text = leader
          · have h : (onChanged tl leader ed st ev).state = (update leader ed true 0).state := by
              simp [onChanged, hev, hact, hl]
            rw [h, hupd]
            exact ⟨rfl, rfl⟩
          · by_cases hcl : closingMatch change.text = true
            · have h : (onChanged tl leader ed st ev).state = (convert tl ed true).state := by
                simp [onChanged, hev, hact, hl, hcl]
              rw [h, convert_state]
              exact ⟨rfl, rfl⟩
            · by_cases hemp : change.text = ([] : Str)
              · have h : (onChanged tl leader ed st ev).state
                    = (update leader ed true (-1)).state := by
                  simp [onChanged, hev, hact, hemp, hemp ▸ hl, hemp ▸ hcl]
                rw [h, hupd]
                exact ⟨rfl, rfl⟩
              · have h : (onChanged tl leader ed st ev).state
                    = (update leader ed true (Int.ofNat change.text.length)).state := by
                  simp [onChanged, hev, hact, hl, hcl, hemp]
                rw [h, hupd]
                exact ⟨rfl, rfl⟩

/-- Witness for C2 (amended) at a concrete Active handler with one cursor
holding a non-empty selection over `hi` and a one-change event. -/
theorem claim2_witness :
    (onChanged [] (str "\\") ⟨[str "hi"], [⟨⟨0, 0⟩, ⟨0, 2⟩⟩]⟩ ⟨true, []⟩
        ⟨[⟨str "x"⟩]⟩).state.active = false ∧
    (onChanged [] (str "\\") ⟨[str "hi"], [⟨⟨0, 0⟩, ⟨0, 2⟩⟩]⟩ ⟨true, []⟩
        ⟨[⟨str "x"⟩]⟩).state.decorations = [] :=
  claim2_selection_guard_forces_inactive [] (str "\\") ⟨[str "hi"], [⟨⟨0, 0⟩, ⟨0, 2⟩⟩]⟩
    ⟨true, []⟩ ⟨[⟨str "x"⟩]⟩ (fun h => Bool.noConfusion h) (by decide)
    ⟨⟨⟨0, 0⟩, ⟨0, 2⟩⟩, by decide, Or.inr (by decide)⟩

theorem riOf_index {doc : List Str} {incr : Int} {i : Nat} {s : Selection} {ri : RangeInfo}
    (h : riOf doc incr i s = some ri) : ri.index = i := by
  simp only [riOf] at h
  split at h
  · exact Option.noConfusion h
  · cases h
    rfl

theorem scanSelections_index_ge (doc : List Str) (incr : Int) :
    ∀ (sels : List Selection) (i : Nat) (ri : RangeInfo),
      ri ∈ scanSelections doc incr i sels → i ≤ ri.index := by
  intro sels
  induction sels with
  | nil => intro i ri h; simp [scanSelections] at h
  | cons s rest ih =>
      intro i ri h
      unfold scanSelections at h
      cases hrg : riOf doc incr i s with
      | none =>
          simp only [hrg] at h
          have := ih (i + 1) ri h
          omega
      | some r0 =>
          simp only [hrg] at h
          rcases List.mem_cons.mp h with h1 | h1
          · rw [h1]
            exact le_of_eq (riOf_index hrg).symm
          · have := ih (i + 1) ri h1
            omega

theorem scanSelections_index_inj (doc : List Str) (incr : Int) :
    ∀ (sels : List Selection) (i : Nat) (a b : RangeInfo),
      a ∈ scanSelections doc incr i sels → b ∈ scanSelections doc incr i sels →
        a.index = b.index → a = b := by
  intro sels
  induction sels with
  | nil => intro i a b ha _hb _heq; simp [scanSelections] at ha
  | cons s rest ih =>
      intro i a b ha hb heq
      unfold scanSelections at ha hb
      cases hrg : riOf doc incr i s with
      | none =>
          simp only [hrg] at ha hb
          exact ih (i + 1) a b ha hb heq
      | some r0 =>
          simp only [hrg] at ha hb
          rcases List.mem_cons.mp ha with h1 | h1 <;> rcases List.mem_cons.mp hb with h2 | h2
          · rw [h1, h2]
          · exfalso
            have hbge := scanSelections_index_ge doc incr rest (i + 1) b h2
            have hai := riOf_index hrg
            rw [h1] at heq
            omega
          · exfalso
            have hage := scanSelections_index_ge doc incr rest (i + 1) a h1
            have hbi := riOf_index hrg
            rw [h2] at heq
            omega
          · exact ih (i + 1) a b h1 h2 heq

theorem getRangeInfo_index_inj {active : Bool} {ed : EditorState} {incr : Int}
    {a b : RangeInfo} (ha : a ∈ getRangeInfo active ed incr)
    (hb : b ∈ getRangeInfo active ed incr) (heq : a.index = b.index) : a = b := by
  cases active with
  | false => rw [getRangeInfo_false] at ha; simp at ha
  | true =>
      by_cases hany : ed.selections.any (fun s => ! s.isSingleLine || ! s.isEmpty) = true
      · have hnil : getRangeInfo true ed incr = [] := by
          unfold getRangeInfo
          rw [hany]
          rfl
        rw [hnil] at ha
        simp at ha
      · have hg : getRangeInfo true ed incr = scanSelections ed.document incr 0 ed.selections := by
          simp [getRangeInfo, hany]
        rw [hg] at ha hb
        exact scanSelections_index_inj ed.document incr ed.selections 0 a b ha hb heq

theorem hackyStep_fst_index {doc : List Str} {leader : Str} {ri : RangeInfo}
    {e : Nat × Range × Str × Position} (h : (hackyStep doc leader ri).1 = some e) :
    e.1 = ri.index := by
  unfold hackyStep at h
  split at h
  · exact Option.noConfusion h
  · cases h
    rfl
  · split at h
    · cases h
      rfl
    · exact Option.noConfusion h

theorem hackyStep_mem_update_edits {leader : Str} {ed : EditorState} {incr : Int}
    {ri : RangeInfo} {e : Nat × Range × Str × Position}
    (hmem : ri ∈ getRangeInfo true ed incr)
    (hstep : (hackyStep ed.document leader ri).1 = some e) :
    e ∈ (update leader ed true incr).edits := by
  cases hris : getRangeInfo true ed incr with
  | nil => rw [hris] at hmem; simp at hmem
  | cons r0 rs =>
      have hilist : (update leader ed true incr).edits
          = ((r0 :: rs).map (hackyStep ed.document leader)).filterMap Prod.fst := by
        rw [update_eq_cons leader ed true incr hris]
      rw [hilist]
      refine List.mem_filterMap.mpr ⟨hackyStep ed.document leader ri, ?_, hstep⟩
      refine List.mem_map_of_mem _ ?_
      rw [hris] at hmem
      exact hmem

theorem update_edits_index_ne {leader : Str} {ed : EditorState} {incr : Int}
    {ri : RangeInfo}
    (hmem : ri ∈ getRangeInfo true ed incr)
    (hstep : (hackyStep ed.document leader ri).1 = none) :
    ∀ e ∈ (update leader ed true incr).edits, e.1 ≠ ri.index := by
  intro e he heq
  cases hris : getRangeInfo true ed incr with
  | nil => rw [hris] at hmem; simp at hmem
  | cons r0 rs =>
      have hilist : (update leader ed true incr).edits
          = ((r0 :: rs).map (hackyStep ed.document leader)).filterMap Prod.fst := by
        rw [update_eq_cons leader ed true incr hris]
      rw [hilist] at he
      obtain ⟨p, hpmem, hpe⟩ := List.mem_filterMap.mp he
      obtain ⟨ri2, hri2, hp⟩ := List.mem_map.mp hpmem
      have hstep2 : (hackyStep ed.document leader ri2).1 = some e := by
        rw [hp]
        exact hpe
      have hidx : e.1 = ri2.index := hackyStep_fst_index hstep2
      have hriri : ri2 = ri := by
        refine getRangeInfo_index_inj ?_ hmem (by omega)
        rw [hris]
        exact hri2
      rw [hriri, hstep] at hstep2
      exact Option.noConfusion hstep2

theorem hackyReplacements_curly (leader : Str) :
    hackyReplacements leader (leader ++ str "\x7b\x7b")
      = some (str "⦃⦄", some (str "\x7d\x7d")) := by
  unfold hackyReplacements
  rw [if_pos rfl]

theorem hackyReplacements_square (leader : Str) :
    hackyReplacements leader (leader ++ str "[[")
      = some (str "⟦⟧", some (str "]]")) := by
  unfold hackyReplacements
  rw [if_neg (by simp [str]), if_pos rfl]

theorem hackyReplacements_angle (leader : Str) :
    hackyReplacements leader (leader ++ str "<>") = some (str "⟨⟩", none) := by
  unfold hackyReplacements
  rw [if_neg (by simp [str]), if_neg (by simp [str]), if_pos rfl]

theorem hackyStep_eq_ite {doc : List Str} {leader : Str} {ri : RangeInfo}
    {repl right : Str}
    (hrep : hackyReplacements leader ri.text = some (repl, some right)) :
    hackyStep doc leader ri =
      if getTextInLine doc ri.range.stop.line ri.range.stop.character
          (ri.range.stop.character + right.length) = right then
        (some (hackyEmit ri repl right.length).1, (hackyEmit ri repl right.length).2)
      else (none, ri) := by
  unfold hackyStep
  rw [hrep]

theorem hackyStep_closing_pos {doc : List Str} {leader : Str} {ri : RangeInfo}
    {repl right : Str}
    (hrep : hackyReplacements leader ri.text = some (repl, some right))
    (hclose : getTextInLine doc ri.range.stop.line ri.range.stop.character
        (ri.range.stop.character + right.length) = right) :
    (hackyStep doc leader ri).1
      = some (ri.index,
          (⟨ri.range.start, ⟨ri.range.stop.line, ri.range.stop.character + right.length⟩⟩ : Range),
          repl, (⟨ri.range.start.line, ri.range.start.character + 1⟩ : Position)) := by
  rw [hackyStep_eq_ite hrep, if_pos hclose]
  rfl

theorem hackyStep_closing_neg {doc : List Str} {leader : Str} {ri : RangeInfo}
    {repl right : Str}
    (hrep : hackyReplacements leader ri.text = some (repl, some right))
    (hclose : getTextInLine doc ri.range.stop.line ri.range.stop.character
        (ri.range.stop.character + right.length) ≠ right) :
    (hackyStep doc leader ri).1 = none := by
  rw [hackyStep_eq_ite hrep, if_neg hclose]

theorem hackyStep_noright {doc : List Str} {leader : Str} {ri : RangeInfo} {repl : Str}
    (hrep : hackyReplacements leader ri.text = some (repl, none)) :
    (hackyStep doc leader ri).1
      = some (ri.index,
          (⟨ri.range.start, ⟨ri.range.stop.line, ri.range.stop.character + 0⟩⟩ : Range),
          repl, (⟨ri.range.start.line, ri.range.start.character + 1⟩ : Position)) := by
  unfold hackyStep
  rw [hrep]
  rfl

/-- C7: while Active, a candidate span whose typed text equals leader+`{{`
(resp. leader+`[[`) expands during `update` — i.e. immediately, on ordinary
non-completing events — into `⦃⦄` (resp. `⟦⟧`), with the emitted cursor
between the opening and closing glyph (span start + 1); but the edit is
emitted only if the literal `}}` (resp. `]]`) is found in the buffer
immediately after the span's end, in which case those two characters are
included in the replaced range. A span typed leader+`<>` expands to `⟨⟩`
unconditionally, with the same cursor placement and no extension of the
range. -/
theorem claim7_bracket_pair_expansion (leader : Str) (ed : EditorState) (incr : Int)
    (ri : RangeInfo) (hmem : ri ∈ getRangeInfo true ed incr) :
    (ri.text = leader ++ str "\x7b\x7b" →
      (getTextInLine ed.document ri.range.stop.line ri.range.stop.character
          (ri.range.stop.character + 2) = str "\x7d\x7d" →
        (ri.index,
          (⟨ri.range.start, ⟨ri.range.stop.line, ri.range.stop.character + 2⟩⟩ : Range),
          str "⦃⦄", (⟨ri.range.start.line, ri.range.start.character + 1⟩ : Position))
          ∈ (update leader ed true incr).edits) ∧
      (getTextInLine ed.document ri.range.stop.line ri.range.stop.character
          (ri.range.stop.character + 2) ≠ str "\x7d\x7d" →
        ∀ e ∈ (update leader ed true incr).edits, e.1 ≠ ri.index)) ∧
    (ri.text = leader ++ str "[[" →
      (getTextInLine ed.document ri.range.stop.line ri.range.stop.character
          (ri.range.stop.character + 2) = str "]]" →
        (ri.index,
          (⟨ri.range.start, ⟨ri.range.stop.line, ri.range.stop.character + 2⟩⟩ : Range),
          str "⟦⟧", (⟨ri.range.start.line, ri.range.start.character + 1⟩ : Position))
          ∈ (update leader ed true incr).edits) ∧
      (getTextInLine ed.document ri.range.stop.line ri.range.stop.character
          (ri.range.stop.character + 2) ≠ str "]]" →
        ∀ e ∈ (update leader ed true incr).edits, e.1 ≠ ri.index)) ∧
    (ri.text = leader ++ str "<>" →
      (ri.index, ri.range, str "⟨⟩",
        (⟨ri.range.start.line, ri.range.start.character + 1⟩ : Position))
        ∈ (update leader ed true incr).edits) := by
  refine ⟨fun htext => ⟨fun hclose => ?_, fun hclose => ?_⟩,
    fun htext => ⟨fun hclose => ?_, fun hclose => ?_⟩, fun htext => ?_⟩
  · exact hackyStep_mem_update_edits hmem
      (hackyStep_closing_pos (show hackyReplacements leader ri.text = some (str "⦃⦄", some (str "\x7d\x7d")) by rw [htext]; exact hackyReplacements_curly leader) hclose)
  · exact update_edits_index_ne hmem
      (hackyStep_closing_neg (show hackyReplacements leader ri.text = some (str "⦃⦄", some (str "\x7d\x7d")) by rw [htext]; exact hackyReplacements_curly leader) hclose)
  · exact hackyStep_mem_update_edits hmem
      (hackyStep_closing_pos (show hackyReplacements leader ri.text = some (str "⟦⟧", some (str "]]")) by rw [htext]; exact hackyReplacements_square leader) hclose)
  · exact update_edits_index_ne hmem
      (hackyStep_closing_neg (show hackyReplacements leader ri.text = some (str "⟦⟧", some (str "]]")) by rw [htext]; exact hackyReplacements_square leader) hclose)
  · exact hackyStep_mem_update_edits hmem
      (hackyStep_noright (show hackyReplacements leader ri.text = some (str "⟨⟩", none) by rw [htext]; exact hackyReplacements_angle leader))

/-- Witness for C7: with leader `\`, buffer line `\{{}}` and the cursor after
the second `{`, the tracked span `\{{` is immediately rewritten by `update`
to `⦃⦄` over the range including the trailing `}}`, the cursor landing
between the glyphs. -/
theorem claim7_witness :
    (0, (⟨⟨0, 0⟩, ⟨0, 5⟩⟩ : Range), str "⦃⦄", (⟨0, 1⟩ : Position))
      ∈ (update (str "\\") ⟨[str "\\\x7b\x7b\x7d\x7d"], [⟨⟨0, 3⟩, ⟨0, 3⟩⟩]⟩ true 0).edits :=
  ((claim7_bracket_pair_expansion (str "\\")
      ⟨[str "\\\x7b\x7b\x7d\x7d"], [⟨⟨0, 3⟩, ⟨0, 3⟩⟩]⟩ 0
      ⟨0, ⟨⟨0, 3⟩, ⟨0, 3⟩⟩, ⟨⟨0, 0⟩, ⟨0, 3⟩⟩, str "\\\x7b\x7b"⟩ (by decide)).1
    (by decide)).1 (by decide)

theorem execLeaderScan_isSome_iff (s : Str) :
    (execLeaderScan s).isSome = true ↔
      ∃ pre suf, s = pre ++ '\\' :: suf ∧ ∀ c ∈ suf, jsWhitespace c = false := by
  induction s with
  | nil =>
      simp only [execLeaderScan, Option.isSome_none, Bool.false_eq_true, false_iff]
      rintro ⟨pre, suf, heq, -⟩
      exact List.noConfusion (List.append_eq_nil.mp heq.symm).2
  | cons c rest ih =>
      unfold execLeaderScan
      by_cases hc : (c = '\\' && rest.all (fun d => !jsWhitespace d)) = true
      · rw [if_pos hc]
        simp only [Option.isSome_some, true_iff]
        rw [Bool.and_eq_true] at hc
        obtain ⟨hc1, hc2⟩ := hc
        refine ⟨[], rest, ?_, ?_⟩
        · rw [List.nil_append, decide_eq_true_iff.mp hc1]
        · intro d hd
          have := (List.all_eq_true.mp hc2) d hd
          simpa using this
      · rw [if_neg hc, ih]
        constructor
        · rintro ⟨pre, suf, heq, hall⟩
          exact ⟨c :: pre, suf, by rw [List.cons_append, heq], hall⟩
        · rintro ⟨pre, suf, heq, hall⟩
          cases pre with
          | nil =>
              exfalso
              rw [List.nil_append] at heq
              obtain ⟨hc1, hrest⟩ := List.cons.injEq .. ▸ heq
              apply hc
              rw [Bool.and_eq_true]
              constructor
              · exact decide_eq_true (by injection heq)
              · rw [List.all_eq_true]
                intro d hd
                have hd2 : d ∈ suf := by
                  have : rest = suf := by injection heq
                  rw [← this]
                  exact hd
                simp [hall d hd2]
          | cons p ps =>
              rw [List.cons_append] at heq
              have h1 : c = p := by injection heq
              have h2 : rest = ps ++ '\\' :: suf := by injection heq
              exact ⟨ps, suf, h2, hall⟩

theorem execLeaderScan_eq_none_of_no_backslash (s : Str) (h : ∀ c ∈ s, c ≠ '\\') :
    execLeaderScan s = none := by
  induction s with
  | nil => rfl
  | cons c rest ih =>
      unfold execLeaderScan
      have hc : (c = '\\' && rest.all (fun d => !jsWhitespace d)) = false := by
        have := h c (List.mem_cons_self c rest)
        simp [this]
      rw [hc]
      simp only [Bool.false_eq_true, if_false]
      exact ih (fun d hd => h d (List.mem_cons_of_mem c hd))

theorem riOf_isSome (doc : List Str) (incr : Int) (i : Nat) (sel : Selection) :
    (riOf doc incr i sel).isSome =
      (execLeaderScan ((doc.getD sel.active.line []).take
        ((Int.ofNat sel.active.character + incr).toNat))).isSome := by
  simp only [riOf]
  cases execLeaderScan ((doc.getD sel.active.line []).take
    ((Int.ofNat sel.active.character + incr).toNat)) <;> rfl

theorem riOf_eq_none_of_no_backslash (doc : List Str) (incr : Int) (i : Nat)
    (sel : Selection) (h : ∀ line ∈ doc, ∀ c ∈ line, c ≠ '\\') :
    riOf doc incr i sel = none := by
  have hline : ∀ c ∈ (doc.getD sel.active.line []).take
      ((Int.ofNat sel.active.character + incr).toNat), c ≠ '\\' := by
    intro c hc
    have hc2 : c ∈ doc.getD sel.active.line [] := List.mem_of_mem_take hc
    by_cases hlt : sel.active.line < doc.length
    · rw [List.getD_eq_getElem doc [] hlt] at hc2
      exact h _ (List.getElem_mem hlt) c hc2
    · rw [List.getD_eq_default doc [] (Nat.le_of_not_lt hlt)] at hc2
      exact absurd hc2 (List.not_mem_nil c)
  simp only [riOf]
  rw [execLeaderScan_eq_none_of_no_backslash _ hline]

theorem getRangeInfo_eq_nil_of_no_backslash (active : Bool) (ed : EditorState) (incr : Int)
    (h : ∀ line ∈ ed.document, ∀ c ∈ line, c ≠ '\\') :
    getRangeInfo active ed incr = [] := by
  have hscan : ∀ (sels : List Selection) (i : Nat),
      scanSelections ed.document incr i sels = [] := by
    intro sels
    induction sels with
    | nil => intro i; rfl
    | cons s rest ih =>
        intro i
        unfold scanSelections
        rw [riOf_eq_none_of_no_backslash ed.document incr i s h]
        exact ih (i + 1)
  unfold getRangeInfo
  split
  · rfl
  · split
    · rfl
    · exact hscan ed.selections 0

/-- C10 counterexample: with configured leader `!` (which differs from `\`),
inserting the leader at the end of the line `\x!` both activates the handler
and tracks a span with a decoration — the pre-existing backslash run `\x!`
reaches the cursor — so the claim's "no span tracking occurs" is false as
stated for leaders other than `\`. -/
theorem claim10_counterexample :
    str "!" ≠ str "\\" ∧
    (onChanged [] (str "!") ⟨[str "\\x!"], [⟨⟨0, 3⟩, ⟨0, 3⟩⟩]⟩ ⟨false, []⟩
        ⟨[⟨str "!"⟩]⟩).state = ⟨true, [⟨⟨0, 1⟩, ⟨0, 4⟩⟩]⟩ := by
  decide

/-- C10 (amended): the candidate-span scanner is keyed on the literal
backslash independently of the configured leader. `riOf` — the per-cursor
body of `getRangeInfo`, which takes no leader at all — reports a span iff the
text before the (adjusted) cursor ends with a backslash followed by zero or
more non-whitespace characters. Consequently a buffer containing no backslash
yields no spans whatever the leader, so for a leader other than `\` the
activation trigger (inserted text equals the leader) and the span scanner
disagree at every backslash-free position; but a span can still be tracked
after typing such a leader when the pre-existing text contains a backslash
run reaching the cursor (see the counterexample). -/
theorem claim10_scanner_hardcodes_backslash (doc : List Str) (incr : Int) (i : Nat)
    (sel : Selection) (ed : EditorState) (active : Bool) :
    ((riOf doc incr i sel).isSome = true ↔
      ∃ pre suf,
        (doc.getD sel.active.line []).take
            ((Int.ofNat sel.active.character + incr).toNat) = pre ++ '\\' :: suf ∧
        ∀ c ∈ suf, jsWhitespace c = false) ∧
    ((∀ line ∈ ed.document, ∀ c ∈ line, c ≠ '\\') →
      getRangeInfo active ed incr = []) := by
  constructor
  · rw [riOf_isSome doc incr i sel]
    exact execLeaderScan_isSome_iff _
  · exact getRangeInfo_eq_nil_of_no_backslash active ed incr

/-- Witness for C10 at a backslash-free buffer: no span is reported at all,
for any leader (the scanner never consults one). -/
theorem claim10_witness :
    getRangeInfo true ⟨[str "abc"], [⟨⟨0, 3⟩, ⟨0, 3⟩⟩]⟩ 0 = [] :=
  (claim10_scanner_hardcodes_backslash [str "abc"] 0 0 ⟨⟨0, 3⟩, ⟨0, 3⟩⟩
      ⟨[str "abc"], [⟨⟨0, 3⟩, ⟨0, 3⟩⟩]⟩ true).2 (by decide)

theorem objGet_cons (k1 v1 : Str) (t : Translations) (k : Str) :
    objGet ((k1, v1) :: t) k = if k1 = k then some v1 else objGet t k := by
  by_cases h : k1 = k
  · rw [if_pos h]
    unfold objGet
    rw [List.find?_cons_of_pos _ (by simp [h])]
    rfl
  · rw [if_neg h]
    unfold objGet
    rw [List.find?_cons_of_neg _ (by simp [h])]

theorem objGet_append (l1 l2 : Translations) (k : Str) :
    objGet (l1 ++ l2) k =
      match objGet l1 k with
      | some v => some v
      | none => objGet l2 k := by
  unfold objGet
  rw [List.find?_append]
  cases List.find? (fun p => decide (p.1 = k)) l1 <;> simp [Option.or]

theorem objGet_merge_left (translations custom : Translations) (k : Str) :
    objGet (translations.map (fun p =>
      match objGet custom p.1 with
      | some v => (p.1, v)
      | none => p)) k =
      match objGet translations k with
      | some vb =>
          match objGet custom k with
          | some vc => some vc
          | none => some vb
      | none => none := by
  induction translations with
  | nil => rfl
  | cons p rest ih =>
      obtain ⟨k1, v1⟩ := p
      simp only [List.map_cons]
      by_cases hk : k1 = k
      · subst hk
        cases hc : objGet custom k1 with
        | some vc => simp [hc, objGet_cons]
        | none => simp [hc, objGet_cons]
      · cases hc : objGet custom k1 with
        | some vc => simp [hc, objGet_cons, hk, ih]
        | none => simp [hc, objGet_cons, hk, ih]

theorem objGet_filter_isNone (l base : Translations) (k : Str) :
    objGet (l.filter (fun p => (objGet base p.1).isNone)) k =
      if (objGet base k).isNone = true then objGet l k else none := by
  induction l with
  | nil => simp [objGet]
  | cons p rest ih =>
      obtain ⟨k1, v1⟩ := p
      by_cases hk : k1 = k
      · subst hk
        by_cases hq : (objGet base k1).isNone = true
        · simp [List.filter_cons, hq, objGet_cons, ih]
        · simp [List.filter_cons, hq, objGet_cons, ih]
      · by_cases hq : (objGet base k1).isNone = true
        · simp [List.filter_cons, hq, objGet_cons, hk, ih]
        · simp [List.filter_cons, hq, objGet_cons, hk, ih]

theorem objGet_merge (translations custom : Translations) (k : Str) :
    objGet (mergeTranslations translations custom) k =
      match objGet translations k, objGet custom k with
      | some _, some vc => some vc
      | some vb, none => some vb
      | none, oc => oc := by
  unfold mergeTranslations
  rw [objGet_append, objGet_merge_left, objGet_filter_isNone]
  cases hb : objGet translations k <;> cases hc : objGet custom k <;>
    simp [hb, hc]

theorem objGet_eq_of_mem_nodup {l : Translations} {k v : Str}
    (hmem : (k, v) ∈ l) (hnd : (l.map Prod.fst).Nodup) : objGet l k = some v := by
  induction l with
  | nil => simp at hmem
  | cons p rest ih =>
      obtain ⟨k1, v1⟩ := p
      rw [List.map_cons, List.nodup_cons] at hnd
      rcases List.mem_cons.mp hmem with h1 | h1
      · cases h1
        rw [objGet_cons, if_pos rfl]
      · have hk : k1 ≠ k := by
          intro he
          subst he
          exact hnd.1 (List.mem_map.mpr ⟨(k1, v), h1, rfl⟩)
        rw [objGet_cons, if_neg hk]
        exact ih h1 hnd.2

theorem mem_getAbbrevations {translations custom : Translations} {symbol x : Str}
    (hndc : (custom.map Prod.fst).Nodup) (hndb : (translations.map Prod.fst).Nodup) :
    x ∈ getAbbrevations translations custom symbol ↔
      (objGet custom x = some symbol ∨
        (strTruthy (objGet custom x) = false ∧ objGet translations x = some symbol)) := by
  unfold getAbbrevations
  rw [List.mem_append]
  constructor
  · rintro (hx | hx)
    · left
      obtain ⟨p, hp, hpx⟩ := List.mem_map.mp hx
      obtain ⟨hpmem, hpsym⟩ := List.mem_filter.mp hp
      obtain ⟨k1, v1⟩ := p
      simp only [decide_eq_true_eq] at hpsym
      simp only at hpx
      subst hpx
      subst hpsym
      exact objGet_eq_of_mem_nodup hpmem hndc
    · right
      obtain ⟨p, hp, hpx⟩ := List.mem_map.mp hx
      obtain ⟨hpmem, hcond⟩ := List.mem_filter.mp hp
      obtain ⟨k1, v1⟩ := p
      rw [Bool.and_eq_true] at hcond
      obtain ⟨htr, hsym⟩ := hcond
      simp only [decide_eq_true_eq] at hsym
      simp only at hpx
      subst hpx
      subst hsym
      refine ⟨?_, objGet_eq_of_mem_nodup hpmem hndb⟩
      rw [Bool.not_eq_true'] at htr
      exact htr
  · rintro (hx | ⟨htr, hx⟩)
    · left
      refine List.mem_map.mpr ⟨(x, symbol), ?_, rfl⟩
      refine List.mem_filter.mpr ⟨(objGet_mem hx).1, by simp⟩
    · right
      refine List.mem_map.mpr ⟨(x, symbol), ?_, rfl⟩
      refine List.mem_filter.mpr ⟨(objGet_mem hx).1, ?_⟩
      rw [Bool.and_eq_true]
      exact ⟨by rw [Bool.not_eq_true']; exact htr, by simp⟩

/-- C5 counterexample: with base `{"a": "X"}` and override `{"a": ""}`, the
merged table maps `"a"` to the override's empty string — the base entry is
shadowed in every lookup — and yet `getAbbrevations` for the symbol `"X"`
still lists the shadowed base abbreviation `"a"`: the skip test
`if (customTranslations[k])` (input.ts:46) is JS truthiness, and the empty
string is falsy. -/
theorem claim5_counterexample :
    objGet (mergeTranslations [(str "a", str "X")] [(str "a", str "")]) (str "a")
      = some (str "") ∧
    getAbbrevations [(str "a", str "X")] [(str "a", str "")] (str "X") = [str "a"] := by
  refine ⟨?_, by decide⟩
  decide

/-- C5 (amended): for a key present in both the base and the override table,
the merged table consulted by `findReplacement` maps it to the override's
symbol unconditionally; and provided the override's symbol is non-empty, the
shadowed base entry never surfaces through `getAbbrevations` — the key is
listed exactly when the override itself maps it to the queried symbol. An
override carrying the empty string still shadows the key in the merged table
but fails to suppress the base entry (JS truthiness; see the
counterexample). -/
theorem claim5_override_precedence (translations custom : Translations)
    (k vb vo symbol : Str)
    (hndc : (custom.map Prod.fst).Nodup) (hndb : (translations.map Prod.fst).Nodup)
    (hb : objGet translations k = some vb) (ho : objGet custom k = some vo)
    (hvo : vo ≠ []) :
    objGet (mergeTranslations translations custom) k = some vo ∧
    (k ∈ getAbbrevations translations custom symbol ↔ vo = symbol) := by
  constructor
  · rw [objGet_merge, hb, ho]
  · rw [mem_getAbbrevations hndc hndb, ho]
    constructor
    · rintro (h1 | ⟨htr, -⟩)
      · injection h1
      · exfalso
        rw [show strTruthy (some vo) = !vo.isEmpty from rfl] at htr
        simp [List.isEmpty_iff, hvo] at htr
    · intro h1
      subst h1
      exact Or.inl rfl

/-- Witness for C5 (amended) where base maps `a ↦ X`, `b ↦ Y` and the
override maps `a ↦ Z`. -/
theorem claim5_witness :
    objGet (mergeTranslations [(str "a", str "X"), (str "b", str "Y")]
        [(str "a", str "Z")]) (str "a") = some (str "Z") ∧
    (str "a" ∈ getAbbrevations [(str "a", str "X"), (str "b", str "Y")]
        [(str "a", str "Z")] (str "Z") ↔ str "Z" = str "Z") :=
  claim5_override_precedence [(str "a", str "X"), (str "b", str "Y")] [(str "a", str "Z")]
    (str "a") (str "X") (str "Z") (str "Z")
    (by decide) (by decide) (by decide) (by decide) (by decide)

theorem lenLe_trans :
    ∀ a b c : Str, ((fun a b : Str => a.length ≤ b.length) a b : Bool) = true →
      ((fun a b : Str => a.length ≤ b.length) b c : Bool) = true →
      ((fun a b : Str => a.length ≤ b.length) a c : Bool) = true := by
  intro a b c hab hbc
  simp only [decide_eq_true_eq] at *
  omega

theorem lenLe_total :
    ∀ a b : Str, (((fun a b : Str => a.length ≤ b.length) a b : Bool)
      || ((fun a b : Str => a.length ≤ b.length) b a : Bool)) = true := by
  intro a b
  simp only [Bool.or_eq_true, decide_eq_true_eq]
  omega

theorem mem_getAbbrevations_merge {translations custom : Translations} {symbol x : Str}
    (hndc : (custom.map Prod.fst).Nodup) (hndb : (translations.map Prod.fst).Nodup)
    (hvc : ∀ p ∈ custom, p.2 ≠ ([] : Str)) :
    x ∈ getAbbrevations translations custom symbol ↔
      objGet (mergeTranslations translations custom) x = some symbol := by
  rw [mem_getAbbrevations hndc hndb, objGet_merge]
  cases hc : objGet custom x with
  | some vc =>
      have hvc2 : vc ≠ [] := hvc (x, vc) (objGet_mem hc).1
      have htru : strTruthy (some vc) = true := by
        rw [show strTruthy (some vc) = !vc.isEmpty from rfl]
        simp [List.isEmpty_iff, hvc2]
      cases hb : objGet translations x with
      | some vb => simp [htru]
      | none => simp [htru]
  | none =>
      cases hb : objGet translations x with
      | some vb => simp [strTruthy]
      | none => simp [strTruthy]

/-- C6 counterexample: with base `{"b": "Y"}` and override `{"b": ""}`, the
abbreviation `"b"` is listed (and shown in the hover message) for the symbol
`"Y"` even though the merged table maps `"b"` to `""`, not to `"Y"` — so the
sequence is not "the abbreviations mapping exactly to that symbol", and an
abbreviation shadowed by an override to a different symbol is not excluded
when that symbol is the (falsy) empty string. -/
theorem claim6_counterexample :
    getAbbrevations [(str "b", str "Y")] [(str "b", str "")] (str "Y") = [str "b"] ∧
    objGet (mergeTranslations [(str "b", str "Y")] [(str "b", str "")]) (str "b")
      = some (str "") ∧
    provideHoverMsg [(str "b", str "Y")] [(str "b", str "")] (str "\\") (str "Y")
      = some (str "Type Y using \\b") := by
  refine ⟨by decide, by decide, ?_⟩
  have hga : getAbbrevations [(str "b", str "Y")] [(str "b", str "")] (str "Y")
      = [str "b"] := by decide
  simp only [provideHoverMsg, sortByLength]
  rw [hga, List.mergeSort_singleton]
  decide

/-- C6 (amended): let `L` be the hover's abbreviation sequence — the stable
length-sort of `getAbbrevations`. Provided the tables have unique keys and
the override's symbols are non-empty, `L` is sorted shortest-first, is a
permutation of the `getAbbrevations` output, keeps the `getAbbrevations`
iteration order on length ties (stability), contains exactly the
abbreviations that the merged table maps to the queried symbol (empty when
none), and the hover message is `Type <symbol> using <leader><abbrev1> or
<leader><abbrev2> ...` over `L` and is absent when `L` is empty. -/
theorem claim6_hover_ordering (translations custom : Translations) (leader symbol : Str)
    (hndc : (custom.map Prod.fst).Nodup) (hndb : (translations.map Prod.fst).Nodup)
    (hvc : ∀ p ∈ custom, p.2 ≠ ([] : Str)) :
    List.Sorted (fun a b : Str => a.length ≤ b.length)
        (sortByLength (getAbbrevations translations custom symbol)) ∧
    (sortByLength (getAbbrevations translations custom symbol)).Perm
        (getAbbrevations translations custom symbol) ∧
    (∀ a b : Str, a.length ≤ b.length →
      [a, b].Sublist (getAbbrevations translations custom symbol) →
      [a, b].Sublist (sortByLength (getAbbrevations translations custom symbol))) ∧
    (∀ x, x ∈ sortByLength (getAbbrevations translations custom symbol) ↔
      objGet (mergeTranslations translations custom) x = some symbol) ∧
    provideHoverMsg translations custom leader symbol
      = (if (sortByLength (getAbbrevations translations custom symbol)).isEmpty then none
         else some (str "Type " ++ symbol ++ str " using "
           ++ joinOr ((sortByLength (getAbbrevations translations custom symbol)).map
                (fun a => leader ++ a)))) := by
  refine ⟨?_, ?_, ?_, ?_, rfl⟩
  · have hp := List.sorted_mergeSort lenLe_trans lenLe_total
      (getAbbrevations translations custom symbol)
    exact hp.imp (fun hab => of_decide_eq_true hab)
  · exact List.mergeSort_perm (getAbbrevations translations custom symbol) _
  · intro a b hab hsub
    exact List.mergeSort_stable_pair lenLe_trans lenLe_total (decide_eq_true hab) hsub
  · intro x
    simp only [sortByLength]
    rw [(List.mergeSort_perm (getAbbrevations translations custom symbol) _).mem_iff]
    exact mem_getAbbrevations_merge hndc hndb hvc

/-- Witness for C6 (amended) at the base table `{"ab": "X"}` with no
overrides. -/
theorem claim6_witness :
    List.Sorted (fun a b : Str => a.length ≤ b.length)
      (sortByLength (getAbbrevations [(str "ab", str "X")] [] (str "X"))) :=
  (claim6_hover_ordering [(str "ab", str "X")] [] (str "\\") (str "X")
    (by decide) (by decide) (by decide)).1

end LeanInput

